import Mathlib

/-!
Verification development for the gr-selcall repository (SELCALL codec).

The Python sources are shallowly embedded over `ℚ`:
* floating-point arithmetic is modelled by exact rational arithmetic;
* the transcendental primitives `np.cos`, `np.sin` and `np.pi` are passed
  as explicit parameters (`cosF`, `sinF`, `piQ`), so every definition stays
  computable and every theorem holds for an arbitrary realisation of those
  primitives (none of the verified claims depends on trigonometric facts);
* Python strings are modelled as `List Char`, numpy arrays as `List ℚ`.

Sources embedded:
* `python/selcall/core/SelectiveCalling.py` (Goertzel detector, formatter)
* `python/selcall/selcall_decoder.py` (noise tracker, state machine, gate)
* `python/selcall/selcall_encoder.py` (tone synthesizer)
* `python/selcall/protocols/ZVEI.py`, `python/selcall/protocols/CCIR.py`
-/

namespace Selcall

/-- Python `int()` applied to a rational: truncation toward zero. -/
def pyInt (q : ℚ) : ℤ := if 0 ≤ q then ⌊q⌋ else -⌊-q⌋

/-- `np.max` on a list (Python `max(list)`); the `[]` case is unreachable in
all call sites, which guard for non-emptiness. -/
def maxListD : List ℚ → ℚ
  | [] => 0
  | [x] => x
  | x :: y :: t => max x (maxListD (y :: t))

/-- `np.argmax`: index of the first occurrence of the maximum value
(numpy scans left to right and replaces the running best only on a strictly
greater value, so ties are broken by the first-seen index). -/
def argmaxFirst : List ℚ → ℕ
  | [] => 0
  | [_] => 0
  | x :: y :: t =>
    let j := argmaxFirst (y :: t)
    if x < (y :: t).getD j 0 then j + 1 else 0

/-- `np.linspace(a, b, steps)`. -/
def linspace (a b : ℚ) (steps : ℕ) : List ℚ :=
  if steps = 1 then [a]
  else (List.range steps).map (fun (i : ℕ) => a + (i : ℚ) * ((b - a) / ((steps : ℚ) - 1)))

/-- `np.hamming(m)`: 0.54 - 0.46*cos(2 pi i / (m-1)). -/
def hammingWindow (cosF : ℚ → ℚ) (piQ : ℚ) (m : ℕ) : List ℚ :=
  if m = 0 then []
  else if m = 1 then [1]
  else (List.range m).map (fun (i : ℕ) => 0.54 - 0.46 * cosF (2 * piQ * (i : ℚ) / ((m : ℚ) - 1)))

/-- `SelectiveCalling.goertzel` (SelectiveCalling.py:33-48): second-order
recursive power estimator at one frequency; an empty sample list returns 0. -/
def goertzel (cosF : ℚ → ℚ) (piQ : ℚ) (samples : List ℚ) (sampleRate freq : ℚ) : ℚ :=
  if samples.length = 0 then 0
  else
    let n : ℚ := samples.length
    let k : ℤ := pyInt (0.5 + n * freq / sampleRate)
    let omega : ℚ := 2 * piQ * k / n
    let coeff : ℚ := 2 * cosF omega
    let s := samples.foldl (fun (p : ℚ × ℚ) x => (x + coeff * p.1 - p.2, p.1)) (0, 0)
    |s.2 ^ 2 + s.1 ^ 2 - coeff * s.1 * s.2|

/-- `SelectiveCalling.goertzel_band` (SelectiveCalling.py:50-54): maximum
Goertzel power over `steps` probe frequencies spanning `[center-band, center+band]`. -/
def goertzelBand (cosF : ℚ → ℚ) (piQ : ℚ) (samples : List ℚ)
    (centerFreq fs band : ℚ) (steps : ℕ) : ℚ :=
  maxListD ((linspace (centerFreq - band) (centerFreq + band) steps).map
    (fun f => goertzel cosF piQ samples fs f))

/-- The per-candidate scores computed in `detect_symbol_for_frame`
(SelectiveCalling.py:64-66): Hamming-window the frame, then score each
candidate frequency with `goertzel_band`. -/
def candidateScores (cosF : ℚ → ℚ) (piQ : ℚ) (frame : List ℚ) (fs : ℚ)
    (freqList : List ℚ) (band : ℚ) (steps : ℕ) : List ℚ :=
  let w := hammingWindow cosF piQ frame.length
  let frameWin := List.zipWith (fun a b => a * b) frame w
  freqList.map (fun f => goertzelBand cosF piQ frameWin f fs band steps)

/-- `SelectiveCalling.detect_symbol_for_frame` (SelectiveCalling.py:59-74).
Returns (symbol, top power, second power, top index).  The boolean `accept`
mirrors `ratio >= ratio_threshold` where `ratio` is `np.inf` when
`second_p > 0` fails (an infinite ratio exceeds any finite threshold). -/
def detectSymbolForFrame (cosF : ℚ → ℚ) (piQ : ℚ) (frame : List ℚ) (fs : ℚ)
    (freqList : List ℚ) (symbolList : List Char) (band : ℚ) (steps : ℕ)
    (ratioThreshold : ℚ) : Char × ℚ × ℚ × ℤ :=
  let powers := candidateScores cosF piQ frame fs freqList band steps
  if powers.length = 0 then ('-', 0, 0, -1)
  else
    let idx := argmaxFirst powers
    let maxP := powers.getD idx 0
    let powers2 := powers.set idx 0
    let secondP := maxListD powers2
    let accept : Bool :=
      if 0 < secondP then decide (ratioThreshold ≤ maxP / (secondP + 1 / 1000000000000))
      else true
    if accept then (symbolList.getD idx '-', maxP, secondP, (idx : ℤ))
    else ('-', maxP, secondP, (idx : ℤ))

/-! ## Protocol tables (protocols/ZVEI.py, protocols/CCIR.py) -/

/-- `ZVEI1_FREQS` (ZVEI.py:6-10), as an association list symbol → Hz. -/
def ZVEI1_FREQS : List (Char × ℚ) :=
  [('1', 1060), ('2', 1160), ('3', 1270), ('4', 1400), ('5', 1530),
   ('6', 1670), ('7', 1830), ('8', 2000), ('9', 2200), ('0', 2400),
   ('A', 2800), ('B', 810), ('C', 970), ('D', 886), ('E', 2600)]

/-- `ZVEI1_SYMBOLS` (ZVEI.py:11). -/
def ZVEI1_SYMBOLS : List Char := ZVEI1_FREQS.map Prod.fst

/-- `ZVEI1_VALUES` (ZVEI.py:12). -/
def ZVEI1_VALUES : List ℚ := ZVEI1_FREQS.map Prod.snd

/-- `ZVEI_TONE_MS` (ZVEI.py:30). -/
def ZVEI_TONE_MS : ℚ := 70

/-- `ZVEI_TONE_CH_REPEATER` (ZVEI.py:35). -/
def ZVEI_TONE_CH_REPEATER : Char := 'E'

/-- `ZVEI_TONE_CH_PAUSE` (ZVEI.py:47). -/
def ZVEI_TONE_CH_PAUSE : Char := 'C'

/-- `ZVEI_TONE_CH_EOM_FREQ` (ZVEI.py:48): frequency of the pause symbol. -/
def ZVEI_TONE_CH_EOM_FREQ : ℚ := (ZVEI1_FREQS.lookup ZVEI_TONE_CH_PAUSE).getD 0

/-- `CCIR_TONE_CH_REPEATER` (CCIR.py:38). -/
def CCIR_TONE_CH_REPEATER : Char := 'E'

/-- `CCIR_TONE_CH_PAUSE` (CCIR.py:69). -/
def CCIR_TONE_CH_PAUSE : Char := 'C'

/-! ## Selective formatter (SelectiveCalling.py:92-159)

Python strings are `List Char`; the elements of the Python list `new_list`
(1-character strings or the empty string `''`) are `List Char` values that
are singletons or empty. -/

/-- First index at which `pat` occurs in `l` (Python `str.find`, returning
`none` for Python's `-1`). -/
def findPatternIdx (l pat : List Char) : Option ℕ :=
  (List.range (l.length + 1)).find? (fun i => List.isPrefixOf pat (l.drop i))

/-- Terminator trim (SelectiveCalling.py:95-98): truncate just after the
first occurrence of `"4E4E"`, if any. -/
def trimTerminator (l : List Char) : List Char :=
  match findPatternIdx l ['4', 'E', '4', 'E'] with
  | some i => l.take (i + 4)
  | none => l

/-- Pause-candidate set and repeat char chosen from the protocol name prefix
(SelectiveCalling.py:106-121).  For ZVEI/CCIR protocols the pause char is
non-empty so the candidate set is `{pause_char}`; otherwise the set
`{'', ' '}` minus `''`, i.e. `{' '}`, with repeat char `'E'`. -/
def pauseRepeatFor (protocol : List Char) : List Char × Char :=
  let p := protocol.map Char.toUpper
  if List.isPrefixOf ['Z', 'V', 'E', 'I'] p then
    ([ZVEI_TONE_CH_PAUSE], ZVEI_TONE_CH_REPEATER)
  else if List.isPrefixOf ['C', 'C', 'I', 'R'] p ∨ p = ['P', 'C', 'C', 'I', 'R'] then
    ([CCIR_TONE_CH_PAUSE], CCIR_TONE_CH_REPEATER)
  else
    ([' '], 'E')

/-- The value appended by a repeat instruction (SelectiveCalling.py:138-142):
the last element of `new_list` if non-empty, else the raw input character at
`i-1` (or the empty string when `i = 0`).  The `getD` default is unreachable:
the loop only passes indices `i` with `i - 1 < hexList.length`. -/
def fmtRepeatVal (hexList : List Char) (acc : List (List Char)) (i : ℕ) : List Char :=
  match acc.getLast? with
  | some lastE => lastE
  | none => if 1 ≤ i then [hexList.getD (i - 1) '-'] else []

/-- The formatter's character loop (SelectiveCalling.py:124-144), over the
enumerated character list, carrying the accumulated `new_list`. -/
def fmtStep (repCh : Char) (pauses : List Char) (g : ℕ) (hexList : List Char) :
    List (ℕ × Char) → List (List Char) → List (List Char)
  | [], acc => acc
  | (i, c) :: rest, acc =>
    if c = repCh ∨ c ∈ pauses then
      if c ∈ pauses ∧ i ≠ 0 ∧ i % g = 0 then
        fmtStep repCh pauses g hexList rest acc
      else if c = repCh ∧ i ≠ 0 ∧ i % g = 0 then
        fmtStep repCh pauses g hexList rest acc
      else
        fmtStep repCh pauses g hexList rest (acc ++ [fmtRepeatVal hexList acc i])
    else
      fmtStep repCh pauses g hexList rest (acc ++ [[c]])

/-- Grouping into chunks of `g` (SelectiveCalling.py:147): the Python
comprehension `[new_list[i:i+g] for i in range(0, len(new_list), g)]`. -/
def chunkList (g : ℕ) (l : List (List Char)) : List (List (List Char)) :=
  (List.range ((l.length + g - 1) / g)).map (fun j => (l.drop (j * g)).take g)

/-- `SelectiveCalling.selective_formatter` (SelectiveCalling.py:92-159).
Both output modes return the same string (the non-MINIMAL branch only adds
printing), so a single result is modelled. -/
def selectiveFormatter (selectiveString : List Char) (groupSize : Option ℕ)
    (protocol : List Char) : List Char :=
  let s := trimTerminator (selectiveString.map Char.toUpper)
  let g := groupSize.getD 5
  let pr := pauseRepeatFor protocol
  let newList := fmtStep pr.2 pr.1 g s s.enum []
  List.intercalate ['-'] ((chunkList g newList).map (fun grp => grp.flatten))

/-! ## Decoder state machine (selcall_decoder.py:189-235) -/

/-- Run-length compression of adjacent duplicates, continuing after `prev`
(selcall_decoder.py:220-223). -/
def rleAux (prev : Char) : List Char → List Char
  | [] => []
  | s :: rest => if s ≠ prev then s :: rleAux s rest else rleAux prev rest

/-- Run-length compression (selcall_decoder.py:216-223): merge adjacent
identical symbols. -/
def rle : List Char → List Char
  | [] => []
  | x :: xs => x :: rleAux x xs

/-- Mutable state of `_process_symbol_stream`: `detected_symbols_history`
and `last_valid_sequence`. -/
structure DecoderState where
  hist : List Char
  lastValid : List Char
  deriving DecidableEq

/-- The last `n` entries of a list (Python `l[-n:]`, for `n ≤ l.length`). -/
def lastN (n : ℕ) (l : List Char) : List Char := l.drop (l.length - n)

/-- `selcall_decoder._process_symbol_stream` (selcall_decoder.py:189-235):
append the symbol, truncate the history beyond 100 entries, and when the
last 4 entries are all silence attempt validation of the run-length
compressed non-silence string.  Returns the new state and the validated
string handed to `_analyze_sequence`, if any. -/
def processSymbol (st : DecoderState) (sym : Char) : DecoderState × Option (List Char) :=
  let hist1 := st.hist ++ [sym]
  let hist2 := if 100 < hist1.length then hist1.tail else hist1
  if 4 < hist2.length ∧ (lastN 4 hist2).all (fun s => s = '-') then
    let raw := hist2.filter (fun s => s ≠ '-')
    if raw = [] then (⟨hist2, st.lastValid⟩, none)
    else
      let compressed := rle raw
      if 3 ≤ compressed.length ∧ compressed ≠ st.lastValid then
        (⟨[], compressed⟩, some compressed)
      else (⟨hist2, st.lastValid⟩, none)
  else (⟨hist2, st.lastValid⟩, none)

/-- Feed a list of symbols through `processSymbol`, collecting the
validated sequences in order. -/
def runStream : DecoderState → List Char → DecoderState × List (List Char)
  | st, [] => (st, [])
  | st, c :: rest =>
    let r := processSymbol st c
    let r2 := runStream r.1 rest
    (r2.1, r.2.toList ++ r2.2)

/-! ## Noise tracker and audio gate (selcall_decoder.py:151-187, 255-262) -/

/-- Noise-floor EMA update (selcall_decoder.py:153-154). -/
def noiseUpdate (avg p : ℚ) : ℚ :=
  if p < avg * 20 then 0.95 * avg + 0.05 * p else avg

/-- Adaptive thresholding of one frame (selcall_decoder.py:151-160):
update the noise floor, then keep the detected symbol only if the top power
beats the adaptive threshold and the absolute floor 100.0. -/
def noiseGateSymbol (avg p : ℚ) (sym : Char) : ℚ × Char :=
  let avg2 := noiseUpdate avg p
  let adaptiveThresh := avg2 * 8
  (avg2, if adaptiveThresh < p ∧ 100 < p then sym else '-')

/-- Gate state: `gate_open` and `gate_timer_samples`. -/
structure GateState where
  isOpen : Bool
  timer : ℤ
  deriving DecidableEq

/-- One processing tick of the audio gate over `n` samples
(selcall_decoder.py:170-187).  Returns the new state and whether the audio
was passed through (`true`) or muted (`false`). -/
def gateTick (st : GateState) (n : ℕ) : GateState × Bool :=
  if st.isOpen then
    if 0 < st.timer then (⟨true, st.timer - n⟩, true)
    else (⟨false, st.timer⟩, false)
  else (st, false)

/-- A sequence of gate ticks, collecting the pass-through decision of each. -/
def gateRun : GateState → List ℕ → GateState × List Bool
  | st, [] => (st, [])
  | st, n :: rest =>
    let r := gateTick st n
    let r2 := gateRun r.1 rest
    (r2.1, r.2 :: r2.2)

/-- The gate effect of a validated address match (selcall_decoder.py:259-260):
open the gate and reset the timer to the full gate duration. -/
def gateRetrigger (gateDuration : ℤ) (_st : GateState) : GateState :=
  ⟨true, gateDuration⟩

/-- Python `pat in s` on strings: contiguous-substring test. -/
def isSubstring (pat l : List Char) : Bool :=
  (List.range (l.length + 1)).any (fun i => List.isPrefixOf pat (l.drop i))

/-- `selcall_decoder._analyze_sequence` (selcall_decoder.py:237-265): format
the validated string, strip the `'-'` separators, match the uppercased
target code as a substring; on a match retrigger the gate.  Returns the new
gate state, the `gate_active` flag and the `code` string of the message that
is always emitted (selcall_decoder.py:264-281). -/
def analyzeSequence (protocol targetCode : List Char) (codeLength : ℕ)
    (gateDuration : ℤ) (gate : GateState) (decoded : List Char) :
    GateState × Bool × List Char :=
  let formatted := selectiveFormatter decoded (some codeLength) protocol
  let clean := formatted.filter (fun c => c ≠ '-')
  let target := targetCode.map Char.toUpper
  let matched := isSubstring target clean
  (if matched then gateRetrigger gateDuration gate else gate, matched, formatted)

/-! ## Tone synthesizer (selcall_encoder.py:124-197) -/

/-- Number of samples of a segment: Python `int(fs * duration_s)`
(selcall_encoder.py:127,129). -/
def natSamples (fs durS : ℚ) : ℕ := (pyInt (fs * durS)).toNat

/-- `selcall_encoder.generate_sine` (selcall_encoder.py:124-130): a pure
sine tone, or silence of the same length when `freq ≤ 0`. -/
def generateSine (sinF : ℚ → ℚ) (piQ fs amp : ℚ) (freq durS : ℚ) : List ℚ :=
  if freq ≤ 0 then List.replicate (natSamples fs durS) 0
  else (List.range (natSamples fs durS)).map
    (fun (t : ℕ) => amp * sinF (2 * piQ * freq * ((t : ℚ) / fs)))

/-- Python `full_sequence.split('-')` on a character list. -/
def splitDash : List Char → List (List Char)
  | [] => [[]]
  | c :: rest =>
    let r := splitDash rest
    if c = '-' then [] :: r
    else (c :: r.headD []) :: r.tail

/-- The inner character loop of `handle_msg` over one address part
(selcall_encoder.py:171-184), carrying `last_char`: a character equal to the
previous one is synthesized as the repeater symbol's tone. -/
def partWave (sinF : ℚ → ℚ) (piQ fs amp : ℚ) (toneMap : List (Char × ℚ))
    (repCh : Char) (durS : ℚ) : Option Char → List Char → List ℚ
  | _, [] => []
  | lastC, c :: rest =>
    let target := if some c = lastC then repCh else c
    let freq := (toneMap.lookup target).getD 0
    generateSine sinF piQ fs amp freq durS ++
      partWave sinF piQ fs amp toneMap repCh durS (some c) rest

/-- The outer parts loop of `handle_msg` (selcall_encoder.py:165-184):
before every part except the first, one pause tone at the pause frequency. -/
def partsWave (sinF : ℚ → ℚ) (piQ fs amp : ℚ) (toneMap : List (Char × ℚ))
    (repCh : Char) (pauseFreq durS : ℚ) : ℕ → List (List Char) → List ℚ
  | _, [] => []
  | i, part :: rest =>
    (if 0 < i then generateSine sinF piQ fs amp pauseFreq durS else []) ++
      partWave sinF piQ fs amp toneMap repCh durS none part ++
      partsWave sinF piQ fs amp toneMap repCh pauseFreq durS (i + 1) rest

/-- The sample buffer built by `handle_msg` (selcall_encoder.py:150-189):
700 ms padding, the tones of the parts of `own_id ++ "-" ++ dest_code`
separated by pause tones, and 700 ms padding again. -/
def buildWave (sinF : ℚ → ℚ) (piQ fs amp : ℚ) (toneMap : List (Char × ℚ))
    (repCh : Char) (pauseFreq durS : ℚ) (ownId destCode : List Char) : List ℚ :=
  let fullSeq := ownId ++ '-' :: destCode
  let parts := splitDash fullSeq
  let padding : List ℚ := List.replicate (natSamples fs 0.7) 0
  padding ++ partsWave sinF piQ fs amp toneMap repCh pauseFreq durS 0 parts ++ padding

/-- Encoder state touched by `handle_msg`: `audio_buffer`, `buffer_index`,
`transmitting`, `new_burst_started`. -/
structure EncState where
  audioBuffer : List ℚ
  bufferIndex : ℕ
  transmitting : Bool
  newBurstStarted : Bool
  deriving DecidableEq

/-- `selcall_encoder.handle_msg` (selcall_encoder.py:132-196) as a state
transformer.  The message is the extracted destination code: `none` models
a null PMT message, `some []` an empty destination code; both are dropped
with no state change. -/
def handleMsg (sinF : ℚ → ℚ) (piQ fs amp : ℚ) (toneMap : List (Char × ℚ))
    (repCh : Char) (pauseFreq durS : ℚ) (ownId : List Char)
    (st : EncState) (msg : Option (List Char)) : EncState :=
  match msg with
  | none => st
  | some destCode =>
    if destCode = [] then st
    else
      ⟨buildWave sinF piQ fs amp toneMap repCh pauseFreq durS ownId destCode,
       0, true, true⟩

/-- The per-part symbol resolution described by the specification: a
character equal to the immediately preceding character of the same part is
replaced by the repeater symbol.  Spec-side companion of `partWave`. -/
def resolvedSymbols (repCh : Char) : Option Char → List Char → List Char
  | _, [] => []
  | lastC, c :: rest =>
    (if some c = lastC then repCh else c) :: resolvedSymbols repCh (some c) rest

/-! ## Lemmas about the list primitives used by the detector -/

theorem le_maxListD (l : List ℚ) : ∀ x ∈ l, x ≤ maxListD l := by
  induction l with
  | nil => intro x hx; cases hx
  | cons a t ih =>
    intro x hx
    cases t with
    | nil =>
      rw [List.mem_singleton] at hx
      subst hx
      simp [maxListD]
    | cons b t2 =>
      rcases List.mem_cons.mp hx with rfl | h
      · simp [maxListD]
      · exact le_trans (ih x h) (by simp [maxListD])

theorem maxListD_mem (l : List ℚ) (h : l ≠ []) : maxListD l ∈ l := by
  induction l with
  | nil => exact absurd rfl h
  | cons a t ih =>
    cases t with
    | nil => simp [maxListD]
    | cons b t2 =>
      have hm := ih (by simp)
      have he : maxListD (a :: b :: t2) = max a (maxListD (b :: t2)) := by
        simp [maxListD]
      rcases max_choice a (maxListD (b :: t2)) with h2 | h2
      · rw [he, h2]; exact List.mem_cons_self a _
      · rw [he, h2]; exact List.mem_cons_of_mem a hm

theorem maxListD_nonneg (l : List ℚ) (h : l ≠ []) (hn : ∀ x ∈ l, 0 ≤ x) :
    0 ≤ maxListD l :=
  hn _ (maxListD_mem l h)

theorem maxListD_eq_zero_of_all_zero (l : List ℚ) (h : l ≠ [])
    (hz : ∀ x ∈ l, x = 0) : maxListD l = 0 :=
  hz _ (maxListD_mem l h)

theorem argmaxFirst_spec (l : List ℚ) (h : l ≠ []) :
    argmaxFirst l < l.length ∧ l.getD (argmaxFirst l) 0 = maxListD l ∧
    ∀ j < argmaxFirst l, l.getD j 0 < maxListD l := by
  induction l with
  | nil => exact absurd rfl h
  | cons a t ih =>
    cases t with
    | nil =>
      refine ⟨by simp [argmaxFirst], by simp [argmaxFirst, maxListD], ?_⟩
      intro j hj
      simp [argmaxFirst] at hj
    | cons b t2 =>
      obtain ⟨ih1, ih2, ih3⟩ := ih (by simp)
      by_cases hcmp : a < (b :: t2).getD (argmaxFirst (b :: t2)) 0
      · have hidx : argmaxFirst (a :: b :: t2) = argmaxFirst (b :: t2) + 1 := by
          simp only [argmaxFirst]
          rw [if_pos hcmp]
        have ham : a < maxListD (b :: t2) := ih2 ▸ hcmp
        have hmax : maxListD (a :: b :: t2) = maxListD (b :: t2) := by
          simp [maxListD, max_eq_right (le_of_lt ham)]
        refine ⟨?_, ?_, ?_⟩
        · rw [hidx]
          simpa using Nat.succ_lt_succ ih1
        · rw [hidx, hmax, List.getD_cons_succ]
          exact ih2
        · intro j hj
          rw [hidx] at hj
          rw [hmax]
          cases j with
          | zero => rw [List.getD_cons_zero]; exact ham
          | succ j2 =>
            rw [List.getD_cons_succ]
            exact ih3 j2 (Nat.lt_of_succ_lt_succ hj)
      · have hidx : argmaxFirst (a :: b :: t2) = 0 := by
          simp only [argmaxFirst]
          rw [if_neg hcmp]
        have hale : maxListD (b :: t2) ≤ a := ih2 ▸ not_lt.mp hcmp
        have hmax : maxListD (a :: b :: t2) = a := by
          simp [maxListD, max_eq_left hale]
        refine ⟨by rw [hidx]; simp, by rw [hidx, hmax, List.getD_cons_zero], ?_⟩
        intro j hj
        rw [hidx] at hj
        exact absurd hj (Nat.not_lt_zero j)

theorem argmaxFirst_eq_zero_of_all_eq (l : List ℚ) (c : ℚ)
    (h : ∀ x ∈ l, x = c) : argmaxFirst l = 0 := by
  cases l with
  | nil => rfl
  | cons a t =>
    by_contra hne
    obtain ⟨_, _, h3⟩ := argmaxFirst_spec (a :: t) (by simp)
    have h0 : (0 : ℕ) < argmaxFirst (a :: t) := Nat.pos_of_ne_zero hne
    have hlt := h3 0 h0
    rw [List.getD_cons_zero] at hlt
    have ha : a = c := h a (by simp)
    have hm : maxListD (a :: t) = c := h _ (maxListD_mem _ (by simp))
    rw [hm, ha] at hlt
    exact lt_irrefl c hlt

theorem goertzel_nonneg (cosF : ℚ → ℚ) (piQ : ℚ) (samples : List ℚ)
    (fs f : ℚ) : 0 ≤ goertzel cosF piQ samples fs f := by
  unfold goertzel
  split
  · exact le_refl 0
  · exact abs_nonneg _

theorem goertzel_nil (cosF : ℚ → ℚ) (piQ fs f : ℚ) :
    goertzel cosF piQ [] fs f = 0 := rfl

theorem linspace_length (a b : ℚ) (steps : ℕ) :
    (linspace a b steps).length = steps := by
  unfold linspace
  split
  next h => simp [h]
  next h => rw [List.length_map, List.length_range]

theorem goertzelBand_nonneg (cosF : ℚ → ℚ) (piQ : ℚ) (samples : List ℚ)
    (centerFreq fs band : ℚ) (steps : ℕ) (hs : 1 ≤ steps) :
    0 ≤ goertzelBand cosF piQ samples centerFreq fs band steps := by
  unfold goertzelBand
  apply maxListD_nonneg
  · apply List.length_pos.mp
    rw [List.length_map, linspace_length]
    omega
  · intro x hx
    obtain ⟨f, _, rfl⟩ := List.mem_map.mp hx
    exact goertzel_nonneg cosF piQ samples fs f

theorem goertzelBand_nil (cosF : ℚ → ℚ) (piQ : ℚ)
    (centerFreq fs band : ℚ) (steps : ℕ) (hs : 1 ≤ steps) :
    goertzelBand cosF piQ [] centerFreq fs band steps = 0 := by
  unfold goertzelBand
  apply maxListD_eq_zero_of_all_zero
  · apply List.length_pos.mp
    rw [List.length_map, linspace_length]
    omega
  · intro x hx
    obtain ⟨f, _, rfl⟩ := List.mem_map.mp hx
    exact goertzel_nil cosF piQ fs f

theorem candidateScores_length (cosF : ℚ → ℚ) (piQ : ℚ) (frame : List ℚ)
    (fs : ℚ) (freqList : List ℚ) (band : ℚ) (steps : ℕ) :
    (candidateScores cosF piQ frame fs freqList band steps).length
      = freqList.length := by
  simp [candidateScores]

theorem candidateScores_nonneg (cosF : ℚ → ℚ) (piQ : ℚ) (frame : List ℚ)
    (fs : ℚ) (freqList : List ℚ) (band : ℚ) (steps : ℕ) (hs : 1 ≤ steps) :
    ∀ x ∈ candidateScores cosF piQ frame fs freqList band steps, 0 ≤ x := by
  intro x hx
  simp only [candidateScores] at hx
  obtain ⟨f, _, rfl⟩ := List.mem_map.mp hx
  exact goertzelBand_nonneg cosF piQ _ f fs band steps hs

/-! ## C1: tone-detector characterization -/

/-- C1: for a non-empty frame and non-empty candidate list, the detector
scores each candidate by `goertzel_band` on the Hamming-windowed frame
(`candidateScores`), selects the top candidate at the first-seen index of
the maximum score, takes the second power as the maximum of the scores
after zeroing the top, and reports the top candidate's symbol iff the
second power is exactly zero (infinite ratio) or
`top / (second + 1e-12) ≥ ratio_threshold`; otherwise the silence marker. -/
theorem c1_detect_symbol_characterization
    (cosF : ℚ → ℚ) (piQ : ℚ) (frame : List ℚ) (fs : ℚ) (freqList : List ℚ)
    (symbolList : List Char) (band : ℚ) (steps : ℕ) (rth : ℚ)
    (hframe : frame ≠ []) (hfreq : freqList ≠ [])
    (hlen : symbolList.length = freqList.length) (hsteps : 1 ≤ steps) :
    ∀ scores idx top second,
      scores = candidateScores cosF piQ frame fs freqList band steps →
      idx = argmaxFirst scores →
      top = scores.getD idx 0 →
      second = maxListD (scores.set idx 0) →
      scores.length = freqList.length ∧
      idx < scores.length ∧
      top = maxListD scores ∧
      (∀ j < scores.length, scores.getD j 0 ≤ top) ∧
      (∀ j < idx, scores.getD j 0 < top) ∧
      0 ≤ second ∧
      detectSymbolForFrame cosF piQ frame fs freqList symbolList band steps rth =
        (if second = 0 ∨ rth ≤ top / (second + 1 / 1000000000000)
         then (symbolList.getD idx '-', top, second, (idx : ℤ))
         else ('-', top, second, (idx : ℤ))) := by
  intro scores idx top second hsc hidx htop hsecond
  subst hsc hidx htop hsecond
  have hscne : candidateScores cosF piQ frame fs freqList band steps ≠ [] := by
    apply List.length_pos.mp
    rw [candidateScores_length]
    exact List.length_pos.mpr hfreq
  obtain ⟨h1, h2, h3⟩ :=
    argmaxFirst_spec (candidateScores cosF piQ frame fs freqList band steps) hscne
  have hnn := candidateScores_nonneg cosF piQ frame fs freqList band steps hsteps
  have hsetne :
      (candidateScores cosF piQ frame fs freqList band steps).set
        (argmaxFirst (candidateScores cosF piQ frame fs freqList band steps)) 0
        ≠ [] := by
    apply List.length_pos.mp
    rw [List.length_set]
    exact List.length_pos.mpr hscne
  have hsecnn :
      0 ≤ maxListD ((candidateScores cosF piQ frame fs freqList band steps).set
        (argmaxFirst (candidateScores cosF piQ frame fs freqList band steps)) 0) := by
    apply maxListD_nonneg _ hsetne
    intro x hx
    rcases List.mem_or_eq_of_mem_set hx with hmem | rfl
    · exact hnn x hmem
    · exact le_refl 0
  refine ⟨candidateScores_length cosF piQ frame fs freqList band steps, h1, h2, ?_, ?_, hsecnn, ?_⟩
  · intro j hj
    rw [h2]
    have hjmem : (candidateScores cosF piQ frame fs freqList band steps).getD j 0
        ∈ candidateScores cosF piQ frame fs freqList band steps := by
      rw [List.getD_eq_getElem _ _ hj]
      exact List.getElem_mem hj
    exact le_maxListD _ _ hjmem
  · intro j hj
    rw [h2]
    exact h3 j hj
  · unfold detectSymbolForFrame
    rw [if_neg (show ¬(candidateScores cosF piQ frame fs freqList band steps).length = 0
      from by
        rw [candidateScores_length]
        exact fun hc => hfreq (List.eq_nil_of_length_eq_zero hc))]
    dsimp only
    rcases lt_or_eq_of_le hsecnn with hpos | hzero
    · rw [if_pos hpos]
      simp only [decide_eq_true_eq]
      by_cases hr : rth ≤
          (candidateScores cosF piQ frame fs freqList band steps).getD
            (argmaxFirst (candidateScores cosF piQ frame fs freqList band steps)) 0 /
          (maxListD ((candidateScores cosF piQ frame fs freqList band steps).set
            (argmaxFirst (candidateScores cosF piQ frame fs freqList band steps)) 0)
            + 1 / 1000000000000)
      · rw [if_pos hr, if_pos (Or.inr hr)]
      · rw [if_neg hr, if_neg (not_or.mpr ⟨ne_of_gt hpos, hr⟩)]
    · rw [if_neg (show ¬(0 : ℚ) < maxListD
          ((candidateScores cosF piQ frame fs freqList band steps).set
            (argmaxFirst (candidateScores cosF piQ frame fs freqList band steps)) 0)
        from by rw [← hzero]; exact lt_irrefl 0)]
      rw [if_pos rfl, if_pos (Or.inl hzero.symm)]

/-- Witness for C1 at a concrete input: the selected index is in range. -/
theorem c1_detect_symbol_characterization_witness :
    argmaxFirst (candidateScores (fun _ => 1) 0 [1] 1 [1] 0 1) <
      (candidateScores (fun _ => 1) 0 [1] 1 [1] 0 1).length :=
  ((c1_detect_symbol_characterization (fun _ => 1) 0 [1] 1 [1] ['A'] 0 1 0
      (by decide) (by decide) (by decide) (by decide)) _ _ _ _
      rfl rfl rfl rfl).2.1

/-! ## C2: the empty-frame behaviour -/

/-- C2 counterexample: on an empty frame with a non-empty candidate list the
detector does NOT return the silence marker: all scores are zero, the second
power is exactly zero, the ratio is treated as infinite, and the FIRST
candidate's symbol is reported (here `'1'`, with zero top power). -/
theorem c2_empty_frame_counterexample :
    detectSymbolForFrame (fun _ => 0) 0 [] 8000 [1060, 1160] ['1', '2'] 8 5 3
      = ('1', 0, 0, 0) ∧ ('1' : Char) ≠ '-' :=
  ⟨by decide, by decide⟩

/-- C2 amended: for an empty frame and a non-empty candidate list, the
detector returns the FIRST candidate's symbol (not the silence marker) with
zero top and second power and top index 0: every candidate scores zero, so
the zero second power makes the ratio infinite and the top symbol wins. -/
theorem c2_empty_frame_amended (cosF : ℚ → ℚ) (piQ fs : ℚ) (freqList : List ℚ)
    (symbolList : List Char) (band : ℚ) (steps : ℕ) (rth : ℚ)
    (hfreq : freqList ≠ []) (hsteps : 1 ≤ steps) :
    detectSymbolForFrame cosF piQ [] fs freqList symbolList band steps rth =
      (symbolList.getD 0 '-', 0, 0, 0) := by
  obtain ⟨f0, fr, rfl⟩ := List.exists_cons_of_ne_nil hfreq
  have hsc : candidateScores cosF piQ [] fs (f0 :: fr) band steps =
      (f0 :: fr).map (fun f => goertzelBand cosF piQ [] f fs band steps) := rfl
  have hall : ∀ x ∈ candidateScores cosF piQ [] fs (f0 :: fr) band steps, x = 0 := by
    rw [hsc]
    intro x hx
    obtain ⟨f, _, rfl⟩ := List.mem_map.mp hx
    exact goertzelBand_nil cosF piQ f fs band steps hsteps
  have hidx : argmaxFirst (candidateScores cosF piQ [] fs (f0 :: fr) band steps) = 0 :=
    argmaxFirst_eq_zero_of_all_eq _ 0 hall
  have htop : (candidateScores cosF piQ [] fs (f0 :: fr) band steps).getD 0 0 = 0 := by
    rw [hsc]
    simp only [List.map_cons, List.getD_cons_zero]
    exact goertzelBand_nil cosF piQ f0 fs band steps hsteps
  have hsec : maxListD ((candidateScores cosF piQ [] fs (f0 :: fr) band steps).set 0 0)
      = 0 := by
    apply maxListD_eq_zero_of_all_zero
    · apply List.length_pos.mp
      rw [List.length_set, candidateScores_length]
      simp
    · intro x hx
      rcases List.mem_or_eq_of_mem_set hx with hmem | rfl
      · exact hall x hmem
      · rfl
  unfold detectSymbolForFrame
  rw [if_neg (show ¬(candidateScores cosF piQ [] fs (f0 :: fr) band steps).length = 0
    from by rw [candidateScores_length]; simp)]
  dsimp only
  rw [hidx, htop, hsec]
  rw [if_neg (lt_irrefl (0 : ℚ))]
  rw [if_pos rfl]
  norm_num

/-! ## C3: symbol-stream state machine -/

theorem rleAux_length_le (prev : Char) (l : List Char) :
    (rleAux prev l).length ≤ l.length := by
  induction l generalizing prev with
  | nil => simp [rleAux]
  | cons s rest ih =>
    unfold rleAux
    split
    · simpa using Nat.succ_le_succ (ih s)
    · exact le_trans (ih prev) (Nat.le_succ _)

theorem rle_length_le (l : List Char) : (rle l).length ≤ l.length := by
  cases l with
  | nil => simp [rle]
  | cons x xs =>
    unfold rle
    simpa using Nat.succ_le_succ (rleAux_length_le x xs)

theorem runStream_cons (st : DecoderState) (c : Char) (rest : List Char) :
    runStream st (c :: rest) =
      ((runStream (processSymbol st c).1 rest).1,
       (processSymbol st c).2.toList ++ (runStream (processSymbol st c).1 rest).2) := rfl

theorem runStream_append (st : DecoderState) (xs ys : List Char) :
    runStream st (xs ++ ys) =
      ((runStream (runStream st xs).1 ys).1,
        (runStream st xs).2 ++ (runStream (runStream st xs).1 ys).2) := by
  induction xs generalizing st with
  | nil => simp [runStream]
  | cons c rest ih =>
    simp only [List.cons_append, runStream_cons]
    rw [ih]
    simp [List.append_assoc]

/-- A non-silence symbol never triggers the end-of-sequence check: it is the
last of the inspected 4-entry suffix. -/
theorem processSymbol_nonsilence (st : DecoderState) (sym : Char)
    (hsym : sym ≠ '-') (hlen : st.hist.length < 100) :
    processSymbol st sym = (⟨st.hist ++ [sym], st.lastValid⟩, none) := by
  unfold processSymbol
  dsimp only
  rw [if_neg (show ¬100 < (st.hist ++ [sym]).length from by
    rw [List.length_append, List.length_singleton]; omega)]
  rw [if_neg ?hcond]
  case hcond =>
    intro hc
    have h2 := hc.2
    unfold lastN at h2
    rw [List.length_append, List.length_singleton,
      List.drop_append_eq_append_drop] at h2
    have hz : st.hist.length + 1 - 4 - st.hist.length = 0 := by omega
    rw [hz, List.drop_zero, List.all_append] at h2
    simp at h2
    exact hsym h2.2

theorem runStream_nonsilence (xs : List Char) : ∀ (st : DecoderState),
    (∀ x ∈ xs, x ≠ '-') → st.hist.length + xs.length ≤ 100 →
    runStream st xs = (⟨st.hist ++ xs, st.lastValid⟩, []) := by
  induction xs with
  | nil => intro st _ _; simp [runStream]
  | cons c rest ih =>
    intro st hx hlen
    have hc : c ≠ '-' := hx c (List.mem_cons_self c rest)
    have hst : st.hist.length < 100 := by
      rw [List.length_cons] at hlen
      omega
    rw [runStream_cons, processSymbol_nonsilence st c hc hst]
    dsimp only
    rw [ih ⟨st.hist ++ [c], st.lastValid⟩
      (fun x hxm => hx x (List.mem_cons_of_mem c hxm))
      (by rw [List.length_append, List.length_singleton]
          rw [List.length_cons] at hlen
          omega)]
    simp [List.append_assoc]

/-- Feeding a silence symbol while the silence suffix is still shorter than
4 only appends it: the 4-entry suffix still contains a symbol of `seq`. -/
theorem processSymbol_silence_partial (seq pre last : List Char)
    (hseq : ∀ x ∈ seq, x ≠ '-') (hm : 3 ≤ seq.length)
    (hpre : ∀ x ∈ pre, x = '-') (hj : pre.length ≤ 2)
    (hlen : seq.length + pre.length < 100) :
    processSymbol ⟨seq ++ pre, last⟩ '-' =
      (⟨(seq ++ pre) ++ ['-'], last⟩, none) := by
  unfold processSymbol
  dsimp only
  rw [if_neg (show ¬100 < ((seq ++ pre) ++ ['-']).length from by
    rw [List.length_append, List.length_append, List.length_singleton]; omega)]
  rw [if_neg ?hcond]
  case hcond =>
    intro hc
    have hall := hc.2
    unfold lastN at hall
    rw [List.append_assoc, List.length_append,
      List.drop_append_eq_append_drop, List.all_append] at hall
    simp only [Bool.and_eq_true, List.all_eq_true] at hall
    have hlendrop : (seq.drop (seq.length + (pre ++ ['-']).length - 4)).length
        = seq.length - (seq.length + (pre ++ ['-']).length - 4) := List.length_drop _ _
    have hprelen : (pre ++ ['-']).length = pre.length + 1 := by
      rw [List.length_append, List.length_singleton]
    have hne : seq.drop (seq.length + (pre ++ ['-']).length - 4) ≠ [] := by
      apply List.length_pos.mp
      rw [hlendrop, hprelen]
      omega
    obtain ⟨y, hy⟩ := List.exists_mem_of_ne_nil _ hne
    have hymem : y ∈ seq := List.drop_subset _ seq hy
    have hy2 := hall.1 y hy
    simp at hy2
    exact hseq y hymem hy2

/-- The 4th consecutive silence symbol triggers the end-of-sequence check:
the compressed sequence is accepted iff it has length ≥ 3 and differs from
the last accepted one. -/
theorem processSymbol_silence_complete (seq last : List Char)
    (hseq : ∀ x ∈ seq, x ≠ '-') (hm : 3 ≤ seq.length)
    (hrle : 3 ≤ (rle seq).length) (hlen : seq.length + 4 ≤ 100) :
    processSymbol ⟨seq ++ ['-', '-', '-'], last⟩ '-' =
      (if rle seq ≠ last then (⟨[], rle seq⟩, some (rle seq))
       else (⟨seq ++ ['-', '-', '-', '-'], last⟩, none)) := by
  unfold processSymbol
  dsimp only
  have hcat : (seq ++ ['-', '-', '-']) ++ ['-'] = seq ++ ['-', '-', '-', '-'] := by
    simp
  rw [hcat]
  rw [if_neg (show ¬100 < (seq ++ ['-', '-', '-', '-']).length from by
    rw [List.length_append]; simp only [List.length_cons, List.length_nil]; omega)]
  rw [if_pos ?hcond]
  case hcond =>
    constructor
    · rw [List.length_append]
      simp only [List.length_cons, List.length_nil]
      omega
    · unfold lastN
      rw [List.length_append]
      simp only [List.length_cons, List.length_nil]
      have h4 : seq.length + (0 + 1 + 1 + 1 + 1) - 4 = seq.length := by omega
      rw [h4, List.drop_append_eq_append_drop, List.drop_length]
      have h0 : seq.length - seq.length = 0 := by omega
      rw [h0, List.drop_zero, List.nil_append]
      decide
  have hfilter : (seq ++ ['-', '-', '-', '-']).filter (fun s => s ≠ '-') = seq := by
    rw [List.filter_append]
    have h1 : seq.filter (fun s => s ≠ '-') = seq :=
      List.filter_eq_self.mpr (fun a ha => by simp [hseq a ha])
    have h2 : (['-', '-', '-', '-'] : List Char).filter (fun s => s ≠ '-') = [] := by
      decide
    rw [h1, h2, List.append_nil]
  rw [hfilter]
  rw [if_neg (show ¬seq = [] from fun hc => by
    rw [hc] at hm
    simp at hm)]
  by_cases hne : rle seq ≠ last
  · rw [if_pos ⟨hrle, hne⟩, if_pos hne]
  · rw [if_neg (fun hcc => hne hcc.2), if_neg hne]

/-- A full 4-silence run after accumulating `seq`: accepted iff the
compressed string differs from the last accepted one. -/
theorem runStream_silence_run (seq last : List Char)
    (hseq : ∀ x ∈ seq, x ≠ '-') (hm : 3 ≤ seq.length)
    (hrle : 3 ≤ (rle seq).length) (hlen : seq.length + 4 ≤ 100) :
    runStream ⟨seq, last⟩ ['-', '-', '-', '-'] =
      (if rle seq ≠ last then ((⟨[], rle seq⟩ : DecoderState), [rle seq])
       else (⟨seq ++ ['-', '-', '-', '-'], last⟩, [])) := by
  have e0 := processSymbol_silence_partial seq [] last hseq hm
    (by simp) (by simp) (by simpa using by omega)
  simp only [List.append_nil] at e0
  have e1 := processSymbol_silence_partial seq ['-'] last hseq hm
    (by decide) (by decide)
    (by simp only [List.length_cons, List.length_nil]; omega)
  simp only [List.append_assoc, List.cons_append, List.nil_append] at e1
  have e2 := processSymbol_silence_partial seq ['-', '-'] last hseq hm
    (by decide) (by decide)
    (by simp only [List.length_cons, List.length_nil]; omega)
  simp only [List.append_assoc, List.cons_append, List.nil_append] at e2
  have e3 := processSymbol_silence_complete seq last hseq hm hrle hlen
  rw [runStream_cons, e0]
  dsimp only
  rw [runStream_cons, e1]
  dsimp only
  rw [runStream_cons, e2]
  dsimp only
  rw [runStream_cons, e3]
  by_cases hne : rle seq ≠ last
  · rw [if_pos hne, if_pos hne]
    simp [runStream]
  · rw [if_neg hne, if_neg hne]
    simp [runStream]

/-- C3: (i) when the end-of-sequence check fires (history-with-appended
symbol within bounds, last 4 entries all silence, some non-silence content),
the candidate is accepted iff the run-length-compressed non-silence string
has length ≥ 3 AND differs from the last accepted sequence; on acceptance
it is recorded and the history cleared, on rejection nothing is cleared or
emitted.  (ii) Consequently, feeding the identical validated sequence twice
in a row, each copy followed by a 4-frame silence run, emits it only once. -/
theorem c3_state_machine :
    (∀ (st : DecoderState) (sym : Char),
      (st.hist ++ [sym]).length ≤ 100 →
      4 < (st.hist ++ [sym]).length →
      (lastN 4 (st.hist ++ [sym])).all (fun s => s = '-') = true →
      (st.hist ++ [sym]).filter (fun s => s ≠ '-') ≠ [] →
      processSymbol st sym =
        (if 3 ≤ (rle ((st.hist ++ [sym]).filter (fun s => s ≠ '-'))).length ∧
            rle ((st.hist ++ [sym]).filter (fun s => s ≠ '-')) ≠ st.lastValid
         then (⟨[], rle ((st.hist ++ [sym]).filter (fun s => s ≠ '-'))⟩,
               some (rle ((st.hist ++ [sym]).filter (fun s => s ≠ '-'))))
         else (⟨st.hist ++ [sym], st.lastValid⟩, none)))
    ∧
    (∀ (seq last0 : List Char),
      (∀ x ∈ seq, x ≠ '-') → 3 ≤ (rle seq).length → seq.length + 4 ≤ 100 →
      last0 ≠ rle seq →
      runStream ⟨[], last0⟩
          ((seq ++ ['-', '-', '-', '-']) ++ (seq ++ ['-', '-', '-', '-'])) =
        (⟨seq ++ ['-', '-', '-', '-'], rle seq⟩, [rle seq])) := by
  constructor
  · intro st sym h100 hgt hall hraw
    unfold processSymbol
    dsimp only
    rw [if_neg (show ¬100 < (st.hist ++ [sym]).length from by omega)]
    rw [if_pos ⟨hgt, hall⟩]
    rw [if_neg hraw]
  · intro seq last0 hseq hrle hlen hne
    have hm : 3 ≤ seq.length := le_trans hrle (rle_length_le seq)
    have run1 : runStream ⟨[], last0⟩ (seq ++ ['-', '-', '-', '-']) =
        ((⟨[], rle seq⟩ : DecoderState), [rle seq]) := by
      rw [runStream_append ⟨[], last0⟩ seq ['-', '-', '-', '-']]
      rw [runStream_nonsilence seq ⟨[], last0⟩ hseq
        (by simp only [List.length_nil]; omega)]
      dsimp only
      simp only [List.nil_append]
      rw [runStream_silence_run seq last0 hseq hm hrle hlen]
      rw [if_pos (Ne.symm hne)]
    have run2 : runStream ⟨[], rle seq⟩ (seq ++ ['-', '-', '-', '-']) =
        ((⟨seq ++ ['-', '-', '-', '-'], rle seq⟩ : DecoderState), []) := by
      rw [runStream_append ⟨[], rle seq⟩ seq ['-', '-', '-', '-']]
      rw [runStream_nonsilence seq ⟨[], rle seq⟩ hseq
        (by simp only [List.length_nil]; omega)]
      dsimp only
      simp only [List.nil_append]
      rw [runStream_silence_run seq (rle seq) hseq hm hrle hlen]
      rw [if_neg (show ¬rle seq ≠ rle seq from by simp)]
    rw [runStream_append ⟨[], last0⟩ (seq ++ ['-', '-', '-', '-'])
      (seq ++ ['-', '-', '-', '-'])]
    rw [run1]
    dsimp only
    rw [run2]
    simp

/-- Witness for C3 at a concrete input: the sequence `123` fed twice with
silence runs is emitted exactly once. -/
theorem c3_state_machine_witness :
    runStream ⟨[], []⟩
        ((['1', '2', '3'] ++ ['-', '-', '-', '-']) ++
          (['1', '2', '3'] ++ ['-', '-', '-', '-'])) =
      (⟨['1', '2', '3'] ++ ['-', '-', '-', '-'], rle ['1', '2', '3']⟩,
        [rle ['1', '2', '3']]) :=
  c3_state_machine.2 ['1', '2', '3'] [] (by decide) (by decide)
    (by decide) (by decide)

/-- Witness for the amended C2 at a concrete input. -/
theorem c2_empty_frame_amended_witness :
    detectSymbolForFrame (fun _ => 1) 3 [] 8000 [1060] ['7'] 8 5 3
      = (['7'].getD 0 '-', 0, 0, 0) :=
  c2_empty_frame_amended (fun _ => 1) 3 8000 [1060] ['7'] 8 5 3
    (by decide) (by decide)

/-! ## C4: audio gate timing -/

theorem gateRun_cons (st : GateState) (n : ℕ) (rest : List ℕ) :
    gateRun st (n :: rest) =
      ((gateRun (gateTick st n).1 rest).1,
        (gateTick st n).2 :: (gateRun (gateTick st n).1 rest).2) := rfl

theorem gateTick_open (t : ℤ) (n : ℕ) (ht : 0 < t) :
    gateTick ⟨true, t⟩ n = (⟨true, t - n⟩, true) := by
  unfold gateTick
  dsimp only
  rw [if_pos rfl, if_pos ht]

theorem gateTick_expired (t : ℤ) (n : ℕ) (ht : t ≤ 0) :
    gateTick ⟨true, t⟩ n = (⟨false, t⟩, false) := by
  unfold gateTick
  dsimp only
  rw [if_pos rfl, if_neg (not_lt.mpr ht)]

theorem gateRun_open (ticks : List ℕ) : ∀ (t : ℤ), (ticks.sum : ℤ) < t →
    gateRun ⟨true, t⟩ ticks =
      (⟨true, t - ticks.sum⟩, List.replicate ticks.length true) := by
  induction ticks with
  | nil =>
    intro t ht
    simp [gateRun]
  | cons n rest ih =>
    intro t ht
    rw [List.sum_cons, Nat.cast_add] at ht
    have hpos : (0 : ℤ) < t := by omega
    rw [gateRun_cons, gateTick_open t n hpos]
    dsimp only
    rw [ih (t - n) (by omega)]
    rw [List.sum_cons, List.length_cons, List.replicate_succ,
      Nat.cast_add, sub_sub]

theorem gateRun_ones (k : ℕ) : ∀ (t : ℤ), (k : ℤ) ≤ t →
    gateRun ⟨true, t⟩ (List.replicate k 1) =
      (⟨true, t - k⟩, List.replicate k true) := by
  induction k with
  | zero =>
    intro t ht
    simp [gateRun]
  | succ k2 ih =>
    intro t ht
    rw [Nat.cast_add, Nat.cast_one] at ht
    have hpos : (0 : ℤ) < t := by omega
    rw [List.replicate_succ, gateRun_cons, gateTick_open t 1 hpos]
    dsimp only
    rw [Nat.cast_one]
    rw [ih (t - 1) (by omega)]
    rw [List.replicate_succ, Nat.cast_add, Nat.cast_one, sub_sub]
    dsimp only
    rw [add_comm (1 : ℤ) (k2 : ℤ)]

/-- C4: a validated match re-opens the gate with a freshly reset timer
(re-triggered, not extended); each tick of `n` samples while open and with
positive remaining time passes audio and decrements the timer by `n`; a run
of ticks totalling fewer than the gate duration leaves the gate open and
passing throughout (so two matches separated by fewer than `gate_duration`
samples never see the gate close between them); ticking one sample at a time
the gate passes exactly `gate_duration` samples, reaching timer 0 still
open, and the next tick — the timer having reached ≤ 0 — closes it. -/
theorem c4_gate_retrigger_and_timeout (D : ℤ) (st : GateState)
    (ticks : List ℕ) (n k : ℕ) :
    gateRetrigger D st = ⟨true, D⟩ ∧
    (∀ t : ℤ, 0 < t → gateTick ⟨true, t⟩ n = (⟨true, t - n⟩, true)) ∧
    ((ticks.sum : ℤ) < D →
      gateRun ⟨true, D⟩ ticks =
        (⟨true, D - ticks.sum⟩, List.replicate ticks.length true)) ∧
    ((k : ℤ) ≤ D →
      gateRun ⟨true, D⟩ (List.replicate k 1) =
        (⟨true, D - k⟩, List.replicate k true)) ∧
    (∀ t : ℤ, t ≤ 0 → gateTick ⟨true, t⟩ n = (⟨false, t⟩, false)) :=
  ⟨rfl, fun t ht => gateTick_open t n ht, gateRun_open ticks D,
    gateRun_ones k D, fun t ht => gateTick_expired t n ht⟩

/-- Witness for C4 at a concrete input: with a 5-sample gate, ticks of
2 + 2 samples leave the gate open with 1 sample remaining. -/
theorem c4_gate_retrigger_and_timeout_witness :
    gateRun ⟨true, 5⟩ [2, 2] =
      (⟨true, 5 - (([2, 2] : List ℕ).sum : ℤ)⟩,
        List.replicate ([2, 2] : List ℕ).length true) :=
  (c4_gate_retrigger_and_timeout 5 ⟨false, 0⟩ [2, 2] 0 0).2.2.1 (by decide)

/-! ## C5: adaptive noise tracker -/

/-- C5: per frame, the noise EMA is updated to
`0.95*avg + 0.05*top_power` exactly when `top_power < avg*20` (and left
unchanged otherwise), and the detected symbol survives as non-silence iff
`top_power` exceeds both the adaptive threshold (8× the updated average)
and the absolute floor 100; otherwise it is forced to the silence marker. -/
theorem c5_noise_tracker (avg p : ℚ) (sym : Char) :
    ((p < avg * 20 → (noiseGateSymbol avg p sym).1 = 0.95 * avg + 0.05 * p) ∧
     (¬p < avg * 20 → (noiseGateSymbol avg p sym).1 = avg)) ∧
    (sym ≠ '-' →
      ((noiseGateSymbol avg p sym).2 ≠ '-' ↔
        ((noiseGateSymbol avg p sym).1 * 8 < p ∧ 100 < p))) ∧
    (((noiseGateSymbol avg p sym).1 * 8 < p ∧ 100 < p) →
      (noiseGateSymbol avg p sym).2 = sym) ∧
    (¬((noiseGateSymbol avg p sym).1 * 8 < p ∧ 100 < p) →
      (noiseGateSymbol avg p sym).2 = '-') := by
  unfold noiseGateSymbol
  dsimp only
  refine ⟨⟨?_, ?_⟩, ?_, ?_, ?_⟩
  · intro h
    unfold noiseUpdate
    rw [if_pos h]
  · intro h
    unfold noiseUpdate
    rw [if_neg h]
  · intro hsym
    by_cases hc : noiseUpdate avg p * 8 < p ∧ 100 < p
    · rw [if_pos hc]
      exact ⟨fun _ => hc, fun _ => hsym⟩
    · rw [if_neg hc]
      exact ⟨fun hh => absurd rfl hh, fun hh => absurd hh hc⟩
  · intro hc
    rw [if_pos hc]
  · intro hc
    rw [if_neg hc]

/-- Witness for C5 at a concrete input: power 1000 over noise floor 10
passes both thresholds, so the symbol survives. -/
theorem c5_noise_tracker_witness : (noiseGateSymbol 10 1000 '5').2 = '5' :=
  (c5_noise_tracker 10 1000 '5').2.2.1
    (by norm_num [noiseGateSymbol, noiseUpdate])

/-! ## C6: formatter repeat/pause boundary rule -/

/-- C6: in the formatter loop, a character equal to the repeater symbol or
belonging to the pause-candidate set is dropped when `i ≠ 0` and
`i % group_size = 0` (in both the pause and the repeater case); otherwise it
appends the repeat value: the most recently emitted output element, or — if
nothing has been emitted yet — the raw input character at `i-1` (the empty
string when `i = 0`). -/
theorem c6_formatter_boundary_rule (repCh : Char) (pauses : List Char)
    (g : ℕ) (hexList : List Char) (rest : List (ℕ × Char))
    (acc : List (List Char)) (i : ℕ) (c : Char)
    (hg : 1 ≤ g) (htrig : c = repCh ∨ c ∈ pauses) :
    ((i ≠ 0 ∧ i % g = 0 →
      fmtStep repCh pauses g hexList ((i, c) :: rest) acc =
        fmtStep repCh pauses g hexList rest acc) ∧
     (¬(i ≠ 0 ∧ i % g = 0) →
      fmtStep repCh pauses g hexList ((i, c) :: rest) acc =
        fmtStep repCh pauses g hexList rest (acc ++ [fmtRepeatVal hexList acc i])) ∧
     (∀ lastE, acc.getLast? = some lastE → fmtRepeatVal hexList acc i = lastE) ∧
     (acc.getLast? = none → 1 ≤ i →
      fmtRepeatVal hexList acc i = [hexList.getD (i - 1) '-']) ∧
     (acc.getLast? = none → i = 0 → fmtRepeatVal hexList acc i = [])) := by
  refine ⟨?_, ?_, ?_, ?_, ?_⟩
  · intro hb
    rw [fmtStep]
    rw [if_pos htrig]
    by_cases hp : c ∈ pauses
    · rw [if_pos ⟨hp, hb.1, hb.2⟩]
    · have hrep : c = repCh := htrig.resolve_right hp
      rw [if_neg (fun hc => hp hc.1), if_pos ⟨hrep, hb.1, hb.2⟩]
  · intro hb
    rw [fmtStep]
    rw [if_pos htrig]
    rw [if_neg (fun hc => hb ⟨hc.2.1, hc.2.2⟩),
      if_neg (fun hc => hb ⟨hc.2.1, hc.2.2⟩)]
  · intro lastE hl
    unfold fmtRepeatVal
    rw [hl]
  · intro hl hi
    unfold fmtRepeatVal
    rw [hl]
    exact if_pos hi
  · intro hl hi
    unfold fmtRepeatVal
    rw [hl]
    exact if_neg (by omega)

/-- Witness for C6 at a concrete input: an `'E'` at position 5 with group
size 5 sits on a group boundary and is dropped. -/
theorem c6_formatter_boundary_rule_witness :
    fmtStep 'E' ['C'] 5 ['1', '1', '2', '1', '1', 'E', '3']
        [(5, 'E'), (6, '3')] [['1'], ['1'], ['2'], ['1'], ['1']] =
      fmtStep 'E' ['C'] 5 ['1', '1', '2', '1', '1', 'E', '3']
        [(6, '3')] [['1'], ['1'], ['2'], ['1'], ['1']] :=
  (c6_formatter_boundary_rule 'E' ['C'] 5 ['1', '1', '2', '1', '1', 'E', '3']
    [(6, '3')] [['1'], ['1'], ['2'], ['1'], ['1']] 5 'E'
    (by decide) (by decide)).1 (by decide)

/-! ## C7: synthesized buffer structure and repeat-compression -/

theorem splitDash_no_dash (l : List Char) (h : '-' ∉ l) : splitDash l = [l] := by
  induction l with
  | nil => rfl
  | cons c rest ih =>
    have hc : c ≠ '-' := fun hcc => h (hcc ▸ List.mem_cons_self c rest)
    rw [splitDash]
    rw [if_neg hc, ih (fun hm => h (List.mem_cons_of_mem c hm))]
    rfl

theorem splitDash_append (own dest : List Char) (h : '-' ∉ own) :
    splitDash (own ++ '-' :: dest) = own :: splitDash dest := by
  induction own with
  | nil =>
    rw [List.nil_append, splitDash]
    rw [if_pos rfl]
  | cons c rest ih =>
    have hc : c ≠ '-' := fun hcc => h (hcc ▸ List.mem_cons_self c rest)
    rw [List.cons_append, splitDash]
    rw [if_neg hc, ih (fun hm => h (List.mem_cons_of_mem c hm))]
    rfl

theorem partWave_eq_resolved (sinF : ℚ → ℚ) (piQ fs amp : ℚ)
    (toneMap : List (Char × ℚ)) (repCh : Char) (durS : ℚ) :
    ∀ (lastC : Option Char) (part : List Char),
      partWave sinF piQ fs amp toneMap repCh durS lastC part =
        ((resolvedSymbols repCh lastC part).map
          (fun c => generateSine sinF piQ fs amp ((toneMap.lookup c).getD 0) durS)).flatten := by
  intro lastC part
  induction part generalizing lastC with
  | nil => rfl
  | cons c rest ih =>
    rw [partWave, resolvedSymbols]
    rw [List.map_cons, List.flatten_cons, ih (some c)]

/-- C7: the synthesized buffer for own/destination addresses free of the
structural `'-'` marker is 700 ms padding, then the tones of the own part,
one pause tone of one tone-duration at the pause frequency, the tones of
the destination part, and padding again; within each part a character equal
to the immediately preceding character of the part is synthesized as the
repeater symbol's tone (`resolvedSymbols`); in particular the destination
part `"11"` under ZVEI-1 resolves to symbols `1, E` with frequencies
1060 Hz and 2600 Hz — not 1060 Hz twice. -/
theorem c7_encode_buffer_structure (sinF : ℚ → ℚ) (piQ fs amp : ℚ)
    (toneMap : List (Char × ℚ)) (repCh : Char) (pauseFreq durS : ℚ)
    (own dest : List Char) :
    ('-' ∉ own → '-' ∉ dest →
      buildWave sinF piQ fs amp toneMap repCh pauseFreq durS own dest =
        List.replicate (natSamples fs 0.7) 0 ++
        partWave sinF piQ fs amp toneMap repCh durS none own ++
        generateSine sinF piQ fs amp pauseFreq durS ++
        partWave sinF piQ fs amp toneMap repCh durS none dest ++
        List.replicate (natSamples fs 0.7) 0) ∧
    (∀ (lastC : Option Char) (part : List Char),
      partWave sinF piQ fs amp toneMap repCh durS lastC part =
        ((resolvedSymbols repCh lastC part).map
          (fun c => generateSine sinF piQ fs amp ((toneMap.lookup c).getD 0) durS)).flatten) ∧
    resolvedSymbols 'E' none ['1', '1'] = ['1', 'E'] ∧
    (['1', 'E'].map (fun c => (ZVEI1_FREQS.lookup c).getD 0) = [1060, 2600] ∧
      ([1060, 2600] : List ℚ) ≠ [1060, 1060]) := by
  refine ⟨?_, partWave_eq_resolved sinF piQ fs amp toneMap repCh durS,
    by decide, by decide, by decide⟩
  intro hown hdest
  unfold buildWave
  dsimp only
  rw [splitDash_append own dest hown, splitDash_no_dash dest hdest]
  rw [partsWave, partsWave, partsWave]
  rw [if_neg (lt_irrefl 0), if_pos Nat.one_pos]
  simp [List.append_assoc]

/-- Witness for C7 at a concrete input: the ZVEI-1 destination part `"11"`
resolves its second character to the repeater symbol. -/
theorem c7_encode_buffer_structure_witness :
    resolvedSymbols 'E' none ['1', '1'] = ['1', 'E'] :=
  (c7_encode_buffer_structure (fun _ => 0) 0 48000 (8 / 10) ZVEI1_FREQS 'E'
    ZVEI_TONE_CH_EOM_FREQ (7 / 100) ['1'] ['1', '1']).2.2.1

/-! ## C8: zero/negative frequencies and absent symbols degrade to silence -/

theorem lookup_eq_none_of_not_mem (toneMap : List (Char × ℚ)) (sym : Char)
    (h : sym ∉ toneMap.map Prod.fst) : toneMap.lookup sym = none := by
  induction toneMap with
  | nil => rfl
  | cons p rest ih =>
    obtain ⟨k, v⟩ := p
    simp only [List.map_cons, List.mem_cons] at h
    push_neg at h
    rw [List.lookup, show (sym == k) = false from beq_eq_false_iff_ne.mpr h.1]
    exact ih h.2

/-- C8: a zero or negative frequency synthesizes silence of exactly the
same length as any tone segment of the same duration (`int(fs*dur)`
samples), and a symbol absent from the protocol table resolves to 0 Hz.
All of this is total — a malformed address is never fatal. -/
theorem c8_silence_fallback (sinF : ℚ → ℚ) (piQ fs amp freq durS : ℚ)
    (toneMap : List (Char × ℚ)) (sym : Char) :
    (freq ≤ 0 → generateSine sinF piQ fs amp freq durS =
      List.replicate (natSamples fs durS) 0) ∧
    (generateSine sinF piQ fs amp freq durS).length = natSamples fs durS ∧
    (sym ∉ toneMap.map Prod.fst → (toneMap.lookup sym).getD 0 = 0) := by
  refine ⟨?_, ?_, ?_⟩
  · intro h
    unfold generateSine
    rw [if_pos h]
  · unfold generateSine
    split
    · rw [List.length_replicate]
    · rw [List.length_map, List.length_range]
  · intro h
    rw [lookup_eq_none_of_not_mem toneMap sym h]
    rfl

/-- Witness for C8 at a concrete input: frequency −5 yields pure silence of
the nominal segment length. -/
theorem c8_silence_fallback_witness :
    generateSine (fun _ => 0) 0 10 1 (-5) 2 = List.replicate (natSamples 10 2) 0 :=
  (c8_silence_fallback (fun _ => 0) 0 10 1 (-5) 2 [] 'Z').1 (by decide)

/-! ## C9: null or empty encode requests are dropped with no state change -/

/-- C9: a null message (`none`) or an empty destination code (`some []`)
leaves the encoder state — audio buffer, buffer cursor, transmitting flag,
burst flag — exactly as it was. -/
theorem c9_null_or_empty_request (sinF : ℚ → ℚ) (piQ fs amp : ℚ)
    (toneMap : List (Char × ℚ)) (repCh : Char) (pauseFreq durS : ℚ)
    (ownId : List Char) (st : EncState) :
    handleMsg sinF piQ fs amp toneMap repCh pauseFreq durS ownId st none = st ∧
    handleMsg sinF piQ fs amp toneMap repCh pauseFreq durS ownId st (some []) = st :=
  ⟨rfl, rfl⟩

/-! ## C10: target matching and message emission -/

theorem isSubstring_iff (pat l : List Char) :
    isSubstring pat l = true ↔ pat <:+: l := by
  unfold isSubstring
  rw [List.any_eq_true]
  constructor
  · rintro ⟨i, _, hpre⟩
    rw [List.isPrefixOf_iff_prefix] at hpre
    exact hpre.isInfix.trans (List.drop_suffix i l).isInfix
  · rintro ⟨s, t, hst⟩
    refine ⟨s.length, ?_, ?_⟩
    · rw [List.mem_range]
      have hsl : s.length ≤ l.length := by
        rw [← hst, List.length_append, List.length_append]
        omega
      omega
    · rw [List.isPrefixOf_iff_prefix, ← hst, List.append_assoc, List.drop_left]
      exact List.prefix_append pat t

/-- C10: `_analyze_sequence` declares a match — opening the gate with a full
timer and flagging `gate_active` — precisely when the uppercased target code
occurs as a contiguous substring of the formatter's output with the `'-'`
separators removed; on no match the gate state is untouched; and the
formatted code is part of the emitted message in either case. -/
theorem c10_target_match (protocol targetCode : List Char) (codeLength : ℕ)
    (gateDuration : ℤ) (gate : GateState) (decoded : List Char) :
    ((analyzeSequence protocol targetCode codeLength gateDuration gate decoded).2.1 = true ↔
      (targetCode.map Char.toUpper) <:+:
        ((selectiveFormatter decoded (some codeLength) protocol).filter
          (fun c => c ≠ '-'))) ∧
    ((analyzeSequence protocol targetCode codeLength gateDuration gate decoded).2.1 = true →
      (analyzeSequence protocol targetCode codeLength gateDuration gate decoded).1 =
        ⟨true, gateDuration⟩) ∧
    ((analyzeSequence protocol targetCode codeLength gateDuration gate decoded).2.1 = false →
      (analyzeSequence protocol targetCode codeLength gateDuration gate decoded).1 = gate) ∧
    (analyzeSequence protocol targetCode codeLength gateDuration gate decoded).2.2 =
      selectiveFormatter decoded (some codeLength) protocol := by
  unfold analyzeSequence
  dsimp only
  refine ⟨isSubstring_iff _ _, ?_, ?_, rfl⟩
  · intro h
    rw [if_pos h]
    rfl
  · intro h
    rw [if_neg (by rw [h]; exact Bool.false_ne_true)]

/-- Witness for C10 at a concrete input: target `501` matches the decoded
sequence `50123` and opens the gate. -/
theorem c10_target_match_witness :
    (analyzeSequence ['Z', 'V', 'E', 'I', '-', '1'] ['5', '0', '1'] 5 960000
        ⟨false, 0⟩ ['5', '0', '1', '2', '3']).1 = ⟨true, 960000⟩ :=
  (c10_target_match ['Z', 'V', 'E', 'I', '-', '1'] ['5', '0', '1'] 5 960000
    ⟨false, 0⟩ ['5', '0', '1', '2', '3']).2.1 (by decide)

end Selcall
